import Mathlib

/-!
# Verification of the RAG chatbot core (chunking, retrieval, scope gating, orchestration)

Shallow embedding of the core pipeline of the repository
`RAG-Chatbot-Sites-Archeologiques` (files `ingest.py`, `rag.py`):

* `chunk_text`   — the chunking loop of `DocumentIngester.chunk_text` (ingest.py)
* `search`       — the post-index filtering/ranking of `RAGSystem.search` (rag.py)
* `is_in_scope`  — the scope classifier `RAGSystem.is_in_scope` (rag.py)
* `query`        — the orchestrator `RAGSystem.query` (rag.py)
* `index_documents` — the indexing entry point `DocumentIngester.index_documents`

Modelling conventions:
* Python strings are `List Char`; Python floats are `ℚ` (exact arithmetic);
  Python ints that can go negative (the chunker cursor) are `ℤ`.
* External calls (the embedding model, the Chroma index, Ollama) are modelled
  as oracle values/parameters: the index's reply to a query is a value of type
  `IndexReply`, the generator outcome is a value of type `GenOutcome`.
* The `while` loop of `chunk_text` is embedded with explicit fuel; a fuel of
  `text.length + 1` is proved sufficient whenever `chunk_overlap < chunk_size`,
  and the degenerate regimes are analysed as such (the loop then never
  terminates, which the fuel embedding makes provable).
-/

/-! ## Python string helpers -/

/-- The whitespace characters stripped by Python `str.strip()`
(ASCII fragment: space, tab, newline, carriage return, vertical tab, form feed). -/
def isPySpace (c : Char) : Bool :=
  c == ' ' || c == '\t' || c == '\n' || c == '\r' || c == '\x0b' || c == '\x0c'

/-- Python `str.strip()`: remove leading and trailing whitespace. -/
def pyStrip (l : List Char) : List Char :=
  ((l.dropWhile isPySpace).reverse.dropWhile isPySpace).reverse

/-- Python `str.lower()` restricted to ASCII letters (the accented characters
appearing in the repository's keyword lists are already lowercase). -/
def pyLowerChar (c : Char) : Char :=
  if 'A' ≤ c && c ≤ 'Z' then Char.ofNat (c.toNat + 32) else c

/-- An apostrophe character (several of the repository's French message
strings contain apostrophes). -/
def apos : Char := Char.ofNat 39

/-! ## Chunker (`DocumentIngester.chunk_text`, ingest.py lines 202-243) -/

/-- Python slice-index normalization for `s[a:b]` on a string of length `n`:
negative indices count from the end, then the index is clamped to `[0, n]`. -/
def pyIdx (n : ℕ) (i : ℤ) : ℕ :=
  if i < 0 then ((n : ℤ) + i).toNat else min i.toNat n

/-- Python `s[a:b]`. -/
def pySlice (l : List Char) (a b : ℤ) : List Char :=
  (l.take (pyIdx l.length b)).drop (pyIdx l.length a)

/-- The substring `sub` occurs in `l` at (absolute) position `p`. -/
def occursAt (sub l : List Char) (p : ℕ) : Prop :=
  sub <+: l.drop p

instance (sub l : List Char) (p : ℕ) : Decidable (occursAt sub l p) :=
  inferInstanceAs (Decidable (sub <+: l.drop p))

/-- The predicate "position `p` is an admissible `rfind` hit for `sub`
in `l` between normalized bounds `lo` and `hi`". -/
def rfindHit (sub l : List Char) (lo hi p : ℕ) : Prop :=
  lo ≤ p ∧ p + sub.length ≤ hi ∧ occursAt sub l p

instance (sub l : List Char) (lo hi p : ℕ) : Decidable (rfindHit sub l lo hi p) :=
  inferInstanceAs (Decidable (_ ∧ _ ∧ _))

/-- Python `l.rfind(sub, a, b)`: the greatest position of an occurrence of
`sub` lying entirely inside the slice bounds, `none` for Python's `-1`. -/
def pyRfind (sub l : List Char) (a b : ℤ) : Option ℕ :=
  let lo := pyIdx l.length a
  let hi := pyIdx l.length b
  if rfindHit sub l lo hi (Nat.findGreatest (rfindHit sub l lo hi) hi) then
    some (Nat.findGreatest (rfindHit sub l lo hi) hi)
  else none

/-- The sentence-ending delimiters tried in order by `chunk_text`:
`[". ", "! ", "? ", "\n\n", "\n"]`. -/
def punctList : List (List Char) :=
  [['.', ' '], ['!', ' '], ['?', ' '], ['\n', '\n'], ['\n']]

/-- The `for punct in ...: punct_pos = text.rfind(punct, start, end); if
punct_pos != -1: ... break` loop: first delimiter (in list order) with a hit,
together with its hit position. -/
def firstRfind (l : List Char) (a b : ℤ) : List (List Char) → Option (ℕ × List Char)
  | [] => none
  | p :: ps =>
    match pyRfind p l a b with
    | some pos => some (pos, p)
    | none => firstRfind l a b ps

/-- The natural-cut adjustment of the window end: `end = punct_pos + len(punct)`
for the first delimiter found, else the fixed-size end `b`. -/
def naturalCutEnd (l : List Char) (a b : ℤ) : ℤ :=
  match firstRfind l a b punctList with
  | some (pos, p) => ((pos + p.length : ℕ) : ℤ)
  | none => b

/-- The final window end for a window starting at `start`:
`end = min(start + chunk_size, len(text))`, refined by the natural cut
only when `end < len(text)`. -/
def windowEnd (l : List Char) (size : ℕ) (start : ℤ) : ℤ :=
  let end0 : ℤ := min (start + size) l.length
  if end0 < (l.length : ℤ) then naturalCutEnd l start end0 else end0

/-- The cursor update at the bottom of the loop:
`start += chunk_size - chunk_overlap; if start >= end: start = end`. -/
def stepCursor (l : List Char) (size overlap : ℕ) (start : ℤ) : ℤ :=
  let e := windowEnd l size start
  let s1 := start + ((size : ℤ) - (overlap : ℤ))
  if e ≤ s1 then e else s1

/-- A chunk record: the (stripped) chunk text plus the `chunk_id`,
`start_char`, `end_char` fields written into the chunk metadata.  The
document-level metadata spread into each chunk (`{**metadata, ...}`) is not
modelled: no claim mentions it. -/
structure Chunk where
  text : List Char
  chunk_id : ℕ
  start_char : ℤ
  end_char : ℤ
deriving DecidableEq, Repr

/-- The `while start < len(text)` loop of `chunk_text`, with explicit fuel;
`none` means the fuel was exhausted before the loop finished. -/
def chunkLoop (l : List Char) (size overlap : ℕ) : ℕ → ℤ → ℕ → Option (List Chunk)
  | 0, _, _ => none
  | fuel + 1, start, cid =>
    if start < (l.length : ℤ) then
      let e := windowEnd l size start
      let chunkTxt := pyStrip (pySlice l start e)
      let keep := 100 ≤ chunkTxt.length
      (chunkLoop l size overlap fuel (stepCursor l size overlap start)
          (if keep then cid + 1 else cid)).map
        (fun cs => if keep then ⟨chunkTxt, cid, start, e⟩ :: cs else cs)
    else some []

/-- `DocumentIngester.chunk_text`.  Fuel `text.length + 1` is sufficient
whenever `chunk_overlap < chunk_size` (proved below); when the Python loop
does not terminate the fuel runs out and the default `[]` is returned. -/
def chunk_text (l : List Char) (size overlap : ℕ) : List Chunk :=
  (chunkLoop l size overlap (l.length + 1) 0 0).getD []

/-- The chunker terminates on `l`: some amount of fuel completes the loop
from the initial state. -/
def chunkerTerminates (l : List Char) (size overlap : ℕ) : Prop :=
  ∃ fuel, (chunkLoop l size overlap fuel 0 0).isSome

/-- The sequence of window spans `(start, end)` visited by the loop
(kept or discarded), same recursion as `chunkLoop`. -/
def windowsLoop (l : List Char) (size overlap : ℕ) : ℕ → ℤ → Option (List (ℤ × ℤ))
  | 0, _ => none
  | fuel + 1, start =>
    if start < (l.length : ℤ) then
      (windowsLoop l size overlap fuel (stepCursor l size overlap start)).map
        (fun ws => (start, windowEnd l size start) :: ws)
    else some []

/-- All window spans visited by `chunk_text`. -/
def windows (l : List Char) (size overlap : ℕ) : List (ℤ × ℤ) :=
  (windowsLoop l size overlap (l.length + 1) 0).getD []

/-- The windows that pass the minimum-size filter, with their stripped text. -/
def keptWindows (l : List Char) : List (ℤ × ℤ) → List (List Char × ℤ × ℤ)
  | [] => []
  | w :: ws =>
    let t := pyStrip (pySlice l w.1 w.2)
    if 100 ≤ t.length then (t, w.1, w.2) :: keptWindows l ws else keptWindows l ws

/-- Assign consecutive `chunk_id`s starting from `cid`. -/
def numberChunks (cid : ℕ) : List (List Char × ℤ × ℤ) → List Chunk
  | [] => []
  | (t, a, b) :: rest => ⟨t, cid, a, b⟩ :: numberChunks (cid + 1) rest

/-! ## Retriever (`RAGSystem.search`, rag.py lines 123-165) -/

/-- Round-half-to-even to an integer (Python `round` tie behaviour). -/
def roundHalfEven (x : ℚ) : ℤ :=
  if x - ⌊x⌋ < 1/2 then ⌊x⌋
  else if (1 : ℚ)/2 < x - ⌊x⌋ then ⌊x⌋ + 1
  else if Even ⌊x⌋ then ⌊x⌋ else ⌊x⌋ + 1

/-- Python `round(x, 3)`. -/
def round3 (x : ℚ) : ℚ := (roundHalfEven (x * 1000) : ℚ) / 1000

/-- A ChromaDB metadata dictionary (string keys and values suffice here). -/
abbrev Metadata := List (List Char × List Char)

/-- One entry of the vector index's reply to a query: parallel
`documents`/`metadatas`/`distances` entries, zipped. -/
structure ReplyEntry where
  doc : List Char
  md : Metadata
  dist : ℚ
deriving DecidableEq, Repr

/-- The index's reply to one query (the oracle for the external
`collection.query` call). -/
abbrev IndexReply := List ReplyEntry

/-- The dictionary appended per kept entry in `search`. -/
structure RetrievalResult where
  text : List Char
  metadata : Metadata
  similarity : ℚ
  distance : ℚ
deriving DecidableEq, Repr

/-- The unrounded similarity `1 - distance / 2.0` used for the threshold test. -/
def rawSim (e : ReplyEntry) : ℚ := 1 - e.dist / 2

/-- The result record built from a reply entry: the stored `similarity` and
`distance` fields are rounded to 3 decimals (`round(float(...), 3)`). -/
def mkResult (e : ReplyEntry) : RetrievalResult :=
  ⟨e.doc, e.md, round3 (rawSim e), round3 e.dist⟩

/-- The `for i, distance in enumerate(...)` loop of `search`: keep exactly the
entries whose unrounded similarity reaches the threshold, in reply order. -/
def filteredResults (reply : IndexReply) (θ : ℚ) : List RetrievalResult :=
  reply.filterMap (fun e => if θ ≤ rawSim e then some (mkResult e) else none)

/-- Stable insertion by descending key: the new element (earlier in the
original list) is placed before any element of equal key. -/
def insertDescBy (key : α → ℚ) (a : α) : List α → List α
  | [] => [a]
  | b :: t => if key b ≤ key a then a :: b :: t else b :: insertDescBy key a t

/-- Stable descending sort by `key`.  Python's `list.sort(key=..., reverse=True)`
is a stable descending sort, and stable sorts with the same key agree on every
input, so this insertion sort is extensionally the sort performed by `search`. -/
def sortDescBy (key : α → ℚ) : List α → List α
  | [] => []
  | a :: t => insertDescBy key a (sortDescBy key t)

/-- `RAGSystem.search` after the external embedding/index call, as a function
of the index's reply.  `collection = none` models the `if not self.collection:
return []` guard (collection absent, i.e. never built). -/
def search (collection : Option IndexReply) (θ : ℚ) (k : ℕ) : List RetrievalResult :=
  match collection with
  | none => []
  | some reply => (sortDescBy RetrievalResult.similarity (filteredResults reply θ)).take k

/-- `filteredResults` with each kept entry tagged by its reply index
(the `i` of the `enumerate`), used to state the stability of the sort. -/
def filteredResultsIdx (reply : IndexReply) (θ : ℚ) : List (ℕ × RetrievalResult) :=
  reply.enum.filterMap (fun ie => if θ ≤ rawSim ie.2 then some (ie.1, mkResult ie.2) else none)

/-- `search` carrying the original reply index through filter, sort and
truncation. -/
def searchIdx (reply : IndexReply) (θ : ℚ) (k : ℕ) : List (ℕ × RetrievalResult) :=
  (sortDescBy (fun p => p.2.similarity) (filteredResultsIdx reply θ)).take k

/-! ## Scope classifier (`RAGSystem.is_in_scope`, rag.py lines 83-119) -/

/-- The three possible returns of `is_in_scope`:
`"greeting"`, `True`, `False`. -/
inductive ScopeResult
  | greeting
  | inDomain
  | outOfDomain
deriving DecidableEq, Repr

/-- The fixed greeting-phrase list. -/
def greetings : List (List Char) :=
  ["hi", "hello", "salut", "bonjour", "bonsoir",
   "hey", "coucou", "yo", "good morning", "good evening"].map String.toList

/-- The fixed domain-keyword list. -/
def keywords : List (List Char) :=
  ["tunisie", "tunisien", "tunisienne",
   "site archéologique", "sites archéologiques",
   "archéologie", "patrimoine", "ruines", "antique",
   "romain", "punique", "numide", "byzantin",
   "amphithéâtre", "théâtre", "forum", "thermes", "temple",
   "mosaïque", "basilique", "capitole",
   "carthage", "dougga", "el jem", "el djem",
   "sbeitla", "sbeïtla", "kerkouane",
   "bulla regia", "uthina", "maktar", "thuburbo",
   "chemtou", "oudhna"].map String.toList

/-- Python's substring test `sub in q`. -/
def isSubstring (sub l : List Char) : Bool :=
  (List.range (l.length + 1)).any fun i => sub.isPrefixOf (l.drop i)

/-- A regex word character (`\w`, ASCII fragment). -/
def wordChar (c : Char) : Bool := c.isAlphanum || c == '_'

/-- `re.search(r"\bkerk\w*", q)`: some occurrence of `"kerk"` starts at a word
boundary (start of string, or preceded by a non-word character). -/
def hasKerkMatch (q : List Char) : Bool :=
  (List.range q.length).any fun i =>
    ("kerk".toList.isPrefixOf (q.drop i)) && (i == 0 || !wordChar (q.getD (i - 1) ' '))

/-- `RAGSystem.is_in_scope`: normalize (lowercase, strip); greeting check
first (exact match, or a greeting followed by a space or a comma); then the
`kerk` stem regex; then the keyword substring test. -/
def is_in_scope (question : List Char) : ScopeResult :=
  let q := pyStrip (question.map pyLowerChar)
  if greetings.any (fun g => q == g) ||
      greetings.any (fun g => (g ++ [' ']).isPrefixOf q || (g ++ [',']).isPrefixOf q) then
    ScopeResult.greeting
  else if hasKerkMatch q then ScopeResult.inDomain
  else if keywords.any (fun kw => isSubstring kw q) then ScopeResult.inDomain
  else ScopeResult.outOfDomain

/-! ## Orchestrator (`RAGSystem.query` and `generate_response`, rag.py) -/

/-- The fixed welcome message of the greeting terminal state. -/
def greetingMsg : List Char :=
  "Bonjour ! 👋 Je suis votre assistant spécialisé sur les sites archéologiques de Tunisie. \n\nJe peux répondre à vos questions sur:\n• Carthage, Dougga, El Jem, Sbeïtla, Kerkouane, Bulla Regia, etc.\n• L".toList
    ++ [apos] ++ "histoire, l".toList
    ++ [apos] ++ "architecture et les découvertes archéologiques\n• Les périodes punique, romaine, byzantine...\n\nPosez-moi une question !".toList

/-- The fixed refusal message of the out-of-domain terminal state. -/
def oodMsg : List Char :=
  "Désolé, je ne peux répondre qu".toList
    ++ [apos] ++ "aux questions concernant les sites archéologiques de Tunisie.\n\nExemples de questions valides:\n• Quelles sont les particularités du théâtre romain de Dougga ?\n• Parle-moi de l".toList
    ++ [apos] ++ "amphithéâtre d".toList
    ++ [apos] ++ "El Jem\n• Quel est l".toList
    ++ [apos] ++ "histoire de Carthage ?".toList

/-- The fixed no-reliable-information message of the empty-retrieval
terminal state. -/
def noInfoMsg : List Char :=
  "Je ne dispose pas d".toList
    ++ [apos] ++ "information fiable sur ce point dans ma base de connaissances.\n\nReformulez votre question ou posez une question sur un site spécifique (Carthage, Dougga, El Jem, Sbeïtla, Kerkouane, Bulla Regia, etc.).".toList

/-- The fixed message returned when the Ollama liveness probe raises. -/
def msgOllamaDown : List Char :=
  "⚠️ Erreur: Ollama n".toList
    ++ [apos] ++ "est pas accessible. Démarrez-le avec ".toList
    ++ [apos] ++ "ollama serve".toList
    ++ [apos] ++ ".".toList

/-- The prefix of the message returned when `ollama.generate` raises. -/
def genErrorLead : List Char :=
  "⚠️ Erreur lors de la génération: ".toList

/-- Outcome of the external generation call: the liveness probe raises, the
generation call raises with message `e`, or generation succeeds with text `t`. -/
inductive GenOutcome
  | unreachable
  | genError (e : List Char)
  | ok (t : List Char)
deriving DecidableEq, Repr

/-- `RAGSystem.generate_response` as a function of the external outcome:
every failure is mapped to a user-facing message string (never re-raised);
on success the response text is stripped. -/
def generate_response : GenOutcome → List Char
  | .unreachable => msgOllamaDown
  | .genError e => genErrorLead ++ e
  | .ok t => pyStrip t

/-- The orchestrator's structured output contract. -/
structure QueryResult where
  answer : List Char
  sources : List RetrievalResult
  has_sources : Bool
  question : List Char
deriving DecidableEq, Repr

/-- `RAGSystem.query`: classify; short-circuit on greeting and out-of-domain;
retrieve; short-circuit on empty retrieval; otherwise generate with the
retrieved context.  The index reply and generation outcome are the oracles of
the two external calls (the prompt built by `build_prompt` only feeds the
generator, whose outcome is the oracle, so it is not modelled separately). -/
def query (collection : Option IndexReply) (θ : ℚ) (k : ℕ) (gen : GenOutcome)
    (question : List Char) : QueryResult :=
  match is_in_scope question with
  | .greeting => ⟨greetingMsg, [], false, question⟩
  | .outOfDomain => ⟨oodMsg, [], false, question⟩
  | .inDomain =>
    let docs := search collection θ k
    if docs.isEmpty then ⟨noInfoMsg, [], false, question⟩
    else ⟨generate_response gen, docs, true, question⟩

/-! ## Ingestion (`DocumentIngester.index_documents`, ingest.py lines 245-293) -/

/-- One stored entry of the vector-index collection (id, embedding, document
text; the per-chunk metadata dict is not modelled — no claim mentions it). -/
structure IndexEntry where
  id : List Char
  emb : List ℚ
  doc : List Char
deriving DecidableEq

/-- The unique id `f"chunk_{ts}_{i}"`. -/
def chunkEntryId (ts i : ℕ) : List Char :=
  "chunk_".toList ++ (toString ts).toList ++ "_".toList ++ (toString i).toList

/-- `DocumentIngester.index_documents` as a transformer of the collection
state: chunk every document; if no chunks were produced, warn and return
without touching the collection; otherwise embed and add the entries.  Batch
insertion concatenates the batches in order, so the final state equals the
single concatenation modelled here. -/
def index_documents (encode : List Char → List ℚ) (ts size overlap : ℕ)
    (docsContents : List (List Char)) (st : List IndexEntry) : List IndexEntry :=
  let all_chunks := docsContents.flatMap (fun d => chunk_text d size overlap)
  if all_chunks.isEmpty then st
  else st ++ all_chunks.enum.map (fun ic => ⟨chunkEntryId ts ic.1, encode ic.2.text, ic.2.text⟩)

/-- The collection handling of `DocumentIngester.__init__` (ingest.py lines
43-53) as a transformer of the collection state: delete the named collection
if it exists (the `except: pass` makes deletion idempotent) and recreate it
empty — the previous contents are discarded unconditionally. -/
def ingester_init (_st : List IndexEntry) : List IndexEntry := []

/-- A full ingestion run as performed by `ingest.main`: construct the
`DocumentIngester` (which wipes and recreates the collection) and then call
`index_documents` on the document contents. -/
def ingestionRun (encode : List Char → List ℚ) (ts size overlap : ℕ)
    (docsContents : List (List Char)) (st : List IndexEntry) : List IndexEntry :=
  index_documents encode ts size overlap docsContents (ingester_init st)

/-! ## Basic lemmas about the chunker loop -/

theorem pyIdx_coe {n : ℕ} {i : ℤ} (h0 : 0 ≤ i) (h1 : i ≤ (n : ℤ)) :
    (pyIdx n i : ℤ) = i := by
  unfold pyIdx
  rw [if_neg (by omega)]
  omega

theorem punctList_length_pos {p : List Char} (hp : p ∈ punctList) : 1 ≤ p.length := by
  fin_cases hp <;> decide

theorem pyRfind_some {sub l : List Char} {a b : ℤ} {pos : ℕ}
    (h : pyRfind sub l a b = some pos) :
    rfindHit sub l (pyIdx l.length a) (pyIdx l.length b) pos := by
  simp only [pyRfind] at h
  split_ifs at h with hcond
  obtain rfl := Option.some.inj h
  exact hcond

theorem pyRfind_maximal {sub l : List Char} {a b : ℤ} {pos q : ℕ}
    (h : pyRfind sub l a b = some pos)
    (hq : rfindHit sub l (pyIdx l.length a) (pyIdx l.length b) q) : q ≤ pos := by
  simp only [pyRfind] at h
  split_ifs at h with hcond
  obtain rfl := Option.some.inj h
  by_contra hgt
  push_neg at hgt
  have hqhi : q ≤ pyIdx l.length b := by
    have := hq.2.1
    omega
  exact absurd hq (Nat.findGreatest_is_greatest hgt hqhi)

theorem firstRfind_some {l : List Char} {a b : ℤ} {pos : ℕ} {p : List Char} :
    ∀ {ps : List (List Char)}, firstRfind l a b ps = some (pos, p) →
      p ∈ ps ∧ pyRfind p l a b = some pos := by
  intro ps
  induction ps with
  | nil => intro h; simp [firstRfind] at h
  | cons q qs ih =>
    intro h
    simp only [firstRfind] at h
    cases hq : pyRfind q l a b with
    | some pos2 =>
      rw [hq] at h
      simp only [Option.some.injEq, Prod.mk.injEq] at h
      obtain ⟨rfl, rfl⟩ := h
      exact ⟨List.mem_cons_self _ _, hq⟩
    | none =>
      rw [hq] at h
      obtain ⟨hm, hf⟩ := ih h
      exact ⟨List.mem_cons_of_mem _ hm, hf⟩

theorem naturalCutEnd_bounds {l : List Char} {a b : ℤ}
    (h0 : 0 ≤ a) (hab : a < b) (hbN : b ≤ (l.length : ℤ)) :
    a < naturalCutEnd l a b ∧ naturalCutEnd l a b ≤ b := by
  cases hfr : firstRfind l a b punctList with
  | none =>
    unfold naturalCutEnd
    rw [hfr]
    exact ⟨hab, le_refl b⟩
  | some pp =>
    obtain ⟨pos, p⟩ := pp
    have hgoal : naturalCutEnd l a b = ((pos + p.length : ℕ) : ℤ) := by
      unfold naturalCutEnd
      rw [hfr]
    obtain ⟨hmem, hfind⟩ := firstRfind_some hfr
    obtain ⟨hlo, hhi, _⟩ := pyRfind_some hfind
    have hplen := punctList_length_pos hmem
    have hloa : (pyIdx l.length a : ℤ) = a := pyIdx_coe h0 (by omega)
    have hhib : (pyIdx l.length b : ℤ) = b := pyIdx_coe (by omega) hbN
    rw [hgoal]
    omega

theorem windowEnd_bounds {l : List Char} {size : ℕ} {start : ℤ}
    (hsize : 1 ≤ size) (h0 : 0 ≤ start) (hlt : start < (l.length : ℤ)) :
    start < windowEnd l size start ∧ windowEnd l size start ≤ (l.length : ℤ) := by
  simp only [windowEnd]
  split_ifs with h
  · obtain ⟨h1, h2⟩ := naturalCutEnd_bounds h0 (by omega) (by omega :
      min (start + (size : ℤ)) (l.length : ℤ) ≤ (l.length : ℤ))
    exact ⟨h1, by omega⟩
  · constructor <;> omega

theorem stepCursor_le_windowEnd (l : List Char) (size overlap : ℕ) (start : ℤ) :
    stepCursor l size overlap start ≤ windowEnd l size start := by
  simp only [stepCursor]
  split_ifs with h
  · exact le_refl _
  · omega

theorem stepCursor_bounds {l : List Char} {size overlap : ℕ} {start : ℤ}
    (hov : overlap < size) (h0 : 0 ≤ start) (hlt : start < (l.length : ℤ)) :
    start < stepCursor l size overlap start ∧
      stepCursor l size overlap start ≤ (l.length : ℤ) := by
  obtain ⟨h1, h2⟩ := windowEnd_bounds (show (1:ℕ) ≤ size by omega) h0 hlt
  simp only [stepCursor]
  split_ifs with h
  · exact ⟨h1, h2⟩
  · constructor <;> omega

theorem stepCursor_le_self {l : List Char} {size overlap : ℕ} (hov : size ≤ overlap)
    (start : ℤ) : stepCursor l size overlap start ≤ start := by
  simp only [stepCursor]
  split_ifs with h <;> omega

theorem isSome_map_of_isSome {α β : Type} {o : Option α} (f : α → β)
    (h : o.isSome) : (o.map f).isSome := by
  cases o with
  | none => simp at h
  | some a => rfl

theorem chunkLoop_isSome {l : List Char} {size overlap : ℕ} (hov : overlap < size) :
    ∀ (fuel : ℕ) (start : ℤ) (cid : ℕ), 0 ≤ start → start ≤ (l.length : ℤ) →
      (l.length : ℤ) < start + fuel → (chunkLoop l size overlap fuel start cid).isSome := by
  intro fuel
  induction fuel with
  | zero =>
    intro start cid h0 hle hfuel
    exact absurd hfuel (by omega)
  | succ f ih =>
    intro start cid h0 hle hfuel
    simp only [chunkLoop]
    split_ifs with hs hk
    · have hb := stepCursor_bounds hov h0 hs
      exact isSome_map_of_isSome _ (ih _ _ (by omega) hb.2 (by omega))
    · have hb := stepCursor_bounds hov h0 hs
      exact isSome_map_of_isSome _ (ih _ _ (by omega) hb.2 (by omega))
    · simp

theorem windowsLoop_isSome {l : List Char} {size overlap : ℕ} (hov : overlap < size) :
    ∀ (fuel : ℕ) (start : ℤ), 0 ≤ start → start ≤ (l.length : ℤ) →
      (l.length : ℤ) < start + fuel → (windowsLoop l size overlap fuel start).isSome := by
  intro fuel
  induction fuel with
  | zero =>
    intro start h0 hle hfuel
    exact absurd hfuel (by omega)
  | succ f ih =>
    intro start h0 hle hfuel
    simp only [windowsLoop]
    split_ifs with hs
    · have hb := stepCursor_bounds hov h0 hs
      exact isSome_map_of_isSome _ (ih _ (by omega) hb.2 (by omega))
    · simp

theorem chunkLoop_stuck {l : List Char} {size overlap : ℕ} (hov : size ≤ overlap)
    (hN : 1 ≤ l.length) :
    ∀ (fuel : ℕ) (start : ℤ) (cid : ℕ), start ≤ 0 →
      chunkLoop l size overlap fuel start cid = none := by
  intro fuel
  induction fuel with
  | zero => intro start cid h; rfl
  | succ f ih =>
    intro start cid h
    have hstep : stepCursor l size overlap start ≤ 0 :=
      le_trans (stepCursor_le_self hov start) h
    simp only [chunkLoop]
    rw [if_pos (by omega : start < (l.length : ℤ)), ih _ _ hstep]
    rfl

theorem chunkLoop_invariant {l : List Char} {size overlap : ℕ} (hov : overlap < size) :
    ∀ (fuel : ℕ) (start : ℤ) (cid : ℕ) (cs : List Chunk),
      0 ≤ start → chunkLoop l size overlap fuel start cid = some cs →
      (∀ ch ∈ cs,
        start ≤ ch.start_char ∧ 0 ≤ ch.start_char ∧ ch.start_char < ch.end_char ∧
          ch.end_char ≤ (l.length : ℤ) ∧
          ch.text = pyStrip (pySlice l ch.start_char ch.end_char) ∧ 100 ≤ ch.text.length) ∧
      List.Chain' (fun a b => a.start_char < b.start_char) cs ∧
      cs.map Chunk.chunk_id = List.range' cid cs.length := by
  intro fuel
  induction fuel with
  | zero => intro start cid cs h0 h; simp [chunkLoop] at h
  | succ f ih =>
    intro start cid cs h0 h
    simp only [chunkLoop] at h
    by_cases hs : start < (l.length : ℤ)
    · rw [if_pos hs] at h
      have hwb := windowEnd_bounds (show (1:ℕ) ≤ size by omega) h0 hs
      have hsb := stepCursor_bounds hov h0 hs
      by_cases hk : 100 ≤ (pyStrip (pySlice l start (windowEnd l size start))).length
      · simp only [if_pos hk] at h
        obtain ⟨cs0, hrec, hcs⟩ := Option.map_eq_some'.mp h
        obtain ⟨ihm, ihc, ihi⟩ := ih _ _ _ (by omega) hrec
        subst hcs
        refine ⟨?_, ?_, ?_⟩
        · intro ch hch
          rcases List.mem_cons.mp hch with rfl | hch0
          · exact ⟨le_refl _, h0, hwb.1, hwb.2, rfl, hk⟩
          · obtain ⟨ha, hb, hc, hd, he, hf⟩ := ihm ch hch0
            exact ⟨by omega, hb, hc, hd, he, hf⟩
        · refine List.chain'_cons'.mpr ⟨?_, ihc⟩
          intro y hy
          have hym : y ∈ cs0 := List.mem_of_mem_head? hy
          have := (ihm y hym).1
          simpa using by omega
        · simp only [List.map_cons, List.length_cons, ihi]
          rw [List.range'_succ]
      · simp only [if_neg hk] at h
        obtain ⟨cs0, hrec, hcs⟩ := Option.map_eq_some'.mp h
        obtain ⟨ihm, ihc, ihi⟩ := ih _ _ _ (by omega) hrec
        subst hcs
        refine ⟨?_, ihc, ihi⟩
        intro ch hch
        obtain ⟨ha, hb, hc, hd, he, hf⟩ := ihm ch hch
        exact ⟨by omega, hb, hc, hd, he, hf⟩
    · rw [if_neg hs] at h
      obtain rfl := Option.some.inj h.symm
      exact ⟨by simp, by simp, by simp⟩

theorem chunk_text_degenerate {l : List Char} {size overlap : ℕ} (hov : size ≤ overlap) :
    chunk_text l size overlap = [] := by
  by_cases hN : l.length = 0
  · unfold chunk_text
    rw [hN]
    simp [chunkLoop, hN]
  · unfold chunk_text
    rw [chunkLoop_stuck hov (by omega) _ _ _ (le_refl 0)]
    rfl

theorem chunkLoop_eq_windowsLoop {l : List Char} {size overlap : ℕ} :
    ∀ (fuel : ℕ) (start : ℤ) (cid : ℕ),
      chunkLoop l size overlap fuel start cid =
        (windowsLoop l size overlap fuel start).map
          (fun ws => numberChunks cid (keptWindows l ws)) := by
  intro fuel
  induction fuel with
  | zero => intro start cid; rfl
  | succ f ih =>
    intro start cid
    simp only [chunkLoop, windowsLoop]
    by_cases hs : start < (l.length : ℤ)
    · rw [if_pos hs, if_pos hs]
      cases hw : windowsLoop l size overlap f (stepCursor l size overlap start) with
      | none =>
        rw [ih, hw]
        rfl
      | some ws =>
        rw [ih, hw]
        simp only [Option.map_some']
        congr 1
        by_cases hk : 100 ≤ (pyStrip (pySlice l start (windowEnd l size start))).length
        · simp [keptWindows, numberChunks, if_pos hk]
        · simp [keptWindows, numberChunks, if_neg hk]
    · rw [if_neg hs, if_neg hs]
      rfl

theorem chunk_text_eq_windows (l : List Char) (size overlap : ℕ) :
    chunk_text l size overlap = numberChunks 0 (keptWindows l (windows l size overlap)) := by
  unfold chunk_text windows
  rw [chunkLoop_eq_windowsLoop]
  cases hw : windowsLoop l size overlap (l.length + 1) 0 with
  | none => rfl
  | some ws => rfl

theorem windowsLoop_coverage {l : List Char} {size overlap : ℕ} :
    ∀ (fuel : ℕ) (start : ℤ) (ws : List (ℤ × ℤ)),
      windowsLoop l size overlap fuel start = some ws →
      ∀ i : ℤ, start ≤ i → i < (l.length : ℤ) → ∃ w ∈ ws, w.1 ≤ i ∧ i < w.2 := by
  intro fuel
  induction fuel with
  | zero => intro start ws h; simp [windowsLoop] at h
  | succ f ih =>
    intro start ws h
    simp only [windowsLoop] at h
    by_cases hs : start < (l.length : ℤ)
    · rw [if_pos hs] at h
      obtain ⟨ws0, hrec, hws⟩ := Option.map_eq_some'.mp h
      subst hws
      intro i hi1 hi2
      by_cases hiw : i < windowEnd l size start
      · exact ⟨(start, windowEnd l size start), List.mem_cons_self _ _, hi1, hiw⟩
      · push_neg at hiw
        have hsc : stepCursor l size overlap start ≤ i :=
          le_trans (stepCursor_le_windowEnd l size overlap start) hiw
        obtain ⟨w, hwm, hw1, hw2⟩ := ih _ _ hrec i hsc hi2
        exact ⟨w, List.mem_cons_of_mem _ hwm, hw1, hw2⟩
    · rw [if_neg hs] at h
      obtain rfl := Option.some.inj h.symm
      intro i hi1 hi2
      exact absurd hi1 (by omega)

theorem mem_numberChunks_keptWindows {l : List Char} :
    ∀ (ws : List (ℤ × ℤ)) (cid : ℕ) (ch : Chunk), ch ∈ numberChunks cid (keptWindows l ws) →
      ch.text = pyStrip (pySlice l ch.start_char ch.end_char) ∧ 100 ≤ ch.text.length := by
  intro ws
  induction ws with
  | nil => intro cid ch hch; simp [keptWindows, numberChunks] at hch
  | cons w ws ih =>
    intro cid ch hch
    simp only [keptWindows] at hch
    by_cases hk : 100 ≤ (pyStrip (pySlice l w.1 w.2)).length
    · rw [if_pos hk] at hch
      simp only [numberChunks] at hch
      rcases List.mem_cons.mp hch with rfl | hch0
      · exact ⟨rfl, hk⟩
      · exact ih _ _ hch0
    · rw [if_neg hk] at hch
      exact ih _ _ hch

/-- C9: every chunk produced by `chunk_text` stores the whitespace-stripped
text of its window, of length at least 100 characters; windows whose stripped
text is shorter are discarded, so no empty or near-empty chunk ever appears
in the output. -/
theorem chunk_min_size (l : List Char) (size overlap : ℕ) :
    ∀ ch ∈ chunk_text l size overlap,
      100 ≤ ch.text.length ∧ ch.text = pyStrip (pySlice l ch.start_char ch.end_char) := by
  intro ch hch
  rw [chunk_text_eq_windows] at hch
  obtain ⟨h1, h2⟩ := mem_numberChunks_keptWindows _ _ _ hch
  exact ⟨h2, h1⟩

/-- Witness for `chunk_min_size`: a 100-character text yields exactly one
chunk, for which the bound and the stripped-slice equation hold concretely. -/
theorem chunk_min_size_witness :
    100 ≤ (⟨List.replicate 100 'a', 0, 0, 100⟩ : Chunk).text.length ∧
      (⟨List.replicate 100 'a', 0, 0, 100⟩ : Chunk).text =
        pyStrip (pySlice (List.replicate 100 'a') 0 100) :=
  chunk_min_size (List.replicate 100 'a') 600 150 _ (by decide)

/-- C10: every chunk record produced by `chunk_text` is well-formed:
`0 ≤ start_char < end_char ≤ len(text)`, the stored text is the input sliced
from `start_char` to `end_char` with surrounding whitespace stripped, chunks
are ordered by strictly increasing `start_char`, and the `chunk_id`s are
consecutive integers starting at 0 in output order. -/
theorem chunk_text_wellformed (l : List Char) (size overlap : ℕ) :
    (∀ ch ∈ chunk_text l size overlap,
        0 ≤ ch.start_char ∧ ch.start_char < ch.end_char ∧
          ch.end_char ≤ (l.length : ℤ) ∧
          ch.text = pyStrip (pySlice l ch.start_char ch.end_char)) ∧
      List.Chain' (fun a b => a.start_char < b.start_char) (chunk_text l size overlap) ∧
      (chunk_text l size overlap).map Chunk.chunk_id =
        List.range (chunk_text l size overlap).length := by
  by_cases hov : overlap < size
  · have hsome := chunkLoop_isSome (l := l) hov (l.length + 1) 0 0 (le_refl 0) (by omega) (by omega)
    obtain ⟨cs, hcs⟩ := Option.isSome_iff_exists.mp hsome
    obtain ⟨hm, hc, hi⟩ := chunkLoop_invariant hov _ _ _ _ (le_refl 0) hcs
    unfold chunk_text
    rw [hcs]
    simp only [Option.getD_some]
    refine ⟨?_, hc, by simpa [List.range_eq_range'] using hi⟩
    intro ch hch
    obtain ⟨_, hb, hc2, hd, he, _⟩ := hm ch hch
    exact ⟨hb, hc2, hd, he⟩
  · rw [chunk_text_degenerate (by omega)]
    exact ⟨by simp, by simp, by simp⟩

/-- Witness for `chunk_text_wellformed`: the single chunk of a 100-character
text satisfies all the well-formedness bounds concretely. -/
theorem chunk_text_wellformed_witness :
    (0 : ℤ) ≤ (⟨List.replicate 100 'a', 0, 0, 100⟩ : Chunk).start_char ∧
      (⟨List.replicate 100 'a', 0, 0, 100⟩ : Chunk).start_char <
        (⟨List.replicate 100 'a', 0, 0, 100⟩ : Chunk).end_char ∧
      (⟨List.replicate 100 'a', 0, 0, 100⟩ : Chunk).end_char ≤
        ((List.replicate 100 'a').length : ℤ) ∧
      (⟨List.replicate 100 'a', 0, 0, 100⟩ : Chunk).text =
        pyStrip (pySlice (List.replicate 100 'a') 0 100) :=
  (chunk_text_wellformed (List.replicate 100 'a') 600 150).1 _ (by decide)

/-- C3 counterexample: on the one-character text `"a"` (with the repository's
default parameters) `chunk_text` produces no chunks at all, yet the input is
nonempty and not whitespace — a non-whitespace character range is skipped,
contradicting the claim that only per-chunk whitespace trimming is lost. -/
theorem chunk_coverage_counterexample :
    chunk_text ['a'] 600 150 = [] ∧ ['a'] ≠ ([] : List Char) ∧ isPySpace 'a' = false := by
  refine ⟨by decide, by decide, by decide⟩

/-- C3 (amended): for `overlap < size`, the window spans visited by the
chunking loop cover every character position of the input with no gaps, and
the produced chunks are exactly the visited windows whose stripped text has
length at least 100 (numbered consecutively) — so no character range is
skipped except leading/trailing whitespace trimmed per chunk and the spans of
windows discarded as shorter than the 100-character minimum. -/
theorem chunk_coverage (l : List Char) (size overlap : ℕ) (hov : overlap < size) :
    (∀ i : ℕ, i < l.length →
        ∃ w ∈ windows l size overlap, w.1 ≤ (i : ℤ) ∧ (i : ℤ) < w.2) ∧
      chunk_text l size overlap =
        numberChunks 0 (keptWindows l (windows l size overlap)) := by
  constructor
  · intro i hi
    have hsome := windowsLoop_isSome (l := l) hov (l.length + 1) 0 (le_refl 0) (by omega) (by omega)
    obtain ⟨ws, hws⟩ := Option.isSome_iff_exists.mp hsome
    have hcov := windowsLoop_coverage _ _ _ hws i (by omega) (by exact_mod_cast hi)
    unfold windows
    rw [hws]
    simpa using hcov
  · exact chunk_text_eq_windows l size overlap

/-- Witness for `chunk_coverage`: concrete coverage of position 0 of a
100-character text, and the concrete window/chunk correspondence. -/
theorem chunk_coverage_witness :
    (∃ w ∈ windows (List.replicate 100 'a') 600 150, w.1 ≤ (0 : ℤ) ∧ (0 : ℤ) < w.2) ∧
      chunk_text (List.replicate 100 'a') 600 150 =
        numberChunks 0 (keptWindows (List.replicate 100 'a')
          (windows (List.replicate 100 'a') 600 150)) := by
  have h := chunk_coverage (List.replicate 100 'a') 600 150 (by omega)
  exact ⟨h.1 0 (by decide), h.2⟩

/-! ## Orchestrator and ingestion lemmas -/

theorem query_greeting {collection : Option IndexReply} {θ : ℚ} {k : ℕ}
    {gen : GenOutcome} {q : List Char} (hscope : is_in_scope q = ScopeResult.greeting) :
    query collection θ k gen q = ⟨greetingMsg, [], false, q⟩ := by
  unfold query
  rw [hscope]

theorem query_ood {collection : Option IndexReply} {θ : ℚ} {k : ℕ}
    {gen : GenOutcome} {q : List Char} (hscope : is_in_scope q = ScopeResult.outOfDomain) :
    query collection θ k gen q = ⟨oodMsg, [], false, q⟩ := by
  unfold query
  rw [hscope]

theorem query_noResults {collection : Option IndexReply} {θ : ℚ} {k : ℕ}
    {gen : GenOutcome} {q : List Char} (hscope : is_in_scope q = ScopeResult.inDomain)
    (hemp : search collection θ k = []) :
    query collection θ k gen q = ⟨noInfoMsg, [], false, q⟩ := by
  unfold query
  rw [hscope, hemp]
  rfl

theorem query_generate {collection : Option IndexReply} {θ : ℚ} {k : ℕ}
    {gen : GenOutcome} {q : List Char} (hscope : is_in_scope q = ScopeResult.inDomain)
    (hne : search collection θ k ≠ []) :
    query collection θ k gen q =
      ⟨generate_response gen, search collection θ k, true, q⟩ := by
  unfold query
  rw [hscope]
  cases hs : search collection θ k with
  | nil => exact absurd hs hne
  | cons d ds => simp [List.isEmpty]

/-- C8 counterexample: an ingestion run over a corpus that yields no chunks
still mutates the index: `DocumentIngester.__init__` deletes and recreates
the collection before any chunking happens, so a nonempty prior collection
state is wiped to empty even though nothing is indexed — the index state is
not unchanged by the run. -/
theorem ingestion_wipe_counterexample :
    ingestionRun (fun _ => []) 7 600 150 [['a']] [⟨['x'], [], ['y']⟩] = [] ∧
      ([⟨['x'], [], ['y']⟩] : List IndexEntry) ≠ [] := by
  constructor
  · show index_documents (fun _ => []) 7 600 150 [['a']] [] = []
    unfold index_documents
    rw [show ([['a']] : List (List Char)).flatMap
      (fun d => chunk_text d 600 150) = [] by decide]
    rfl
  · decide

/-- C8 (amended): if processing all documents yields an empty chunk set, the
ingestion run reports a non-fatal warning (returns normally) and
`index_documents` performs no mutation — it adds nothing and returns the
collection state it receives unchanged, so the full run leaves the
collection exactly as the ingester's initialization recreated it (empty);
the prior index contents are nevertheless destroyed by the run, because
`__init__` unconditionally deletes and recreates the collection before
chunking. -/
theorem ingestion_empty_chunks (encode : List Char → List ℚ)
    (ts size overlap : ℕ) (docsContents : List (List Char)) (st : List IndexEntry)
    (h : docsContents.flatMap (fun d => chunk_text d size overlap) = []) :
    index_documents encode ts size overlap docsContents st = st ∧
      ingestionRun encode ts size overlap docsContents st = ingester_init st := by
  have h1 : ∀ s : List IndexEntry,
      index_documents encode ts size overlap docsContents s = s := by
    intro s
    unfold index_documents
    rw [h]
    rfl
  exact ⟨h1 st, h1 (ingester_init st)⟩

/-- Witness for `ingestion_empty_chunks`: a one-character document produces
no chunks; `index_documents` returns a concrete nonempty state unchanged and
the full run ends in the freshly recreated empty collection. -/
theorem ingestion_empty_chunks_witness :
    index_documents (fun _ => []) 7 600 150 [['a']] [⟨['x'], [], ['y']⟩] =
        [⟨['x'], [], ['y']⟩] ∧
      ingestionRun (fun _ => []) 7 600 150 [['a']] [⟨['x'], [], ['y']⟩] =
        ingester_init [⟨['x'], [], ['y']⟩] :=
  ingestion_empty_chunks _ _ _ _ _ _ (by decide)

/-- C7: an unavailable dependency never crashes the query cycle: with the
collection absent the retriever returns the empty list rather than raising,
and when the generator probe or the generation call fails the answer field is
the corresponding user-facing error string while `sources` still carries the
retrieved results and `has_sources` stays true. -/
theorem dependency_failure_recovery :
    (∀ (θ : ℚ) (k : ℕ), search none θ k = []) ∧
      (∀ (collection : Option IndexReply) (θ : ℚ) (k : ℕ) (q : List Char),
        is_in_scope q = ScopeResult.inDomain → search collection θ k ≠ [] →
          (query collection θ k GenOutcome.unreachable q).answer = msgOllamaDown ∧
            (query collection θ k GenOutcome.unreachable q).sources =
              search collection θ k ∧
            (query collection θ k GenOutcome.unreachable q).has_sources = true) ∧
      (∀ (collection : Option IndexReply) (θ : ℚ) (k : ℕ) (q e : List Char),
        is_in_scope q = ScopeResult.inDomain → search collection θ k ≠ [] →
          (query collection θ k (GenOutcome.genError e) q).answer =
              genErrorLead ++ e ∧
            (query collection θ k (GenOutcome.genError e) q).sources =
              search collection θ k ∧
            (query collection θ k (GenOutcome.genError e) q).has_sources = true) := by
  refine ⟨fun θ k => rfl, ?_, ?_⟩
  · intro collection θ k q hscope hne
    rw [query_generate hscope hne]
    exact ⟨rfl, rfl, rfl⟩
  · intro collection θ k q e hscope hne
    rw [query_generate hscope hne]
    exact ⟨rfl, rfl, rfl⟩

theorem filteredResults_singleton {e : ReplyEntry} {θ : ℚ} (h : θ ≤ rawSim e) :
    filteredResults [e] θ = [mkResult e] := by
  simp [filteredResults, List.filterMap_cons, h]

theorem search_some_singleton {e : ReplyEntry} {θ : ℚ} {k : ℕ} (hk : 1 ≤ k)
    (h : θ ≤ rawSim e) : search (some [e]) θ k = [mkResult e] := by
  show List.take k (sortDescBy RetrievalResult.similarity (filteredResults [e] θ)) = _
  rw [filteredResults_singleton h]
  simp only [sortDescBy, insertDescBy]
  exact List.take_of_length_le (by simpa using hk)

/-- Witness for `dependency_failure_recovery`: concrete in-domain question
and one-entry index reply, with the generator unreachable. -/
theorem dependency_failure_recovery_witness :
    (query (some [⟨['d'], [], 0⟩]) (35/100) 5 GenOutcome.unreachable
        "carthage".toList).answer = msgOllamaDown ∧
      (query (some [⟨['d'], [], 0⟩]) (35/100) 5 GenOutcome.unreachable
          "carthage".toList).sources = search (some [⟨['d'], [], 0⟩]) (35/100) 5 ∧
      (query (some [⟨['d'], [], 0⟩]) (35/100) 5 GenOutcome.unreachable
          "carthage".toList).has_sources = true :=
  dependency_failure_recovery.2.1 (some [⟨['d'], [], 0⟩]) (35/100) 5 "carthage".toList
    (by decide)
    (by rw [search_some_singleton (by norm_num) (by norm_num [rawSim])]; simp)

/-- C1: the orchestrator returns a structured result whose `has_sources` flag
is true exactly when classification reached the retrieval state and retrieval
was nonempty; the greeting and out-of-domain terminal states return their
fixed messages with empty sources independently of the index and generator
(no retrieval or generation performed); empty retrieval returns the fixed
no-reliable-information message independently of the generator (no generation
performed); otherwise the answer is the generated text and the sources are
exactly the retrieved results. -/
theorem query_contract (collection : Option IndexReply) (θ : ℚ) (k : ℕ)
    (gen : GenOutcome) (q : List Char) :
    (is_in_scope q = ScopeResult.greeting →
        query collection θ k gen q = ⟨greetingMsg, [], false, q⟩ ∧
        ∀ (c2 : Option IndexReply) (g2 : GenOutcome),
          query collection θ k gen q = query c2 θ k g2 q) ∧
      (is_in_scope q = ScopeResult.outOfDomain →
        query collection θ k gen q = ⟨oodMsg, [], false, q⟩ ∧
        ∀ (c2 : Option IndexReply) (g2 : GenOutcome),
          query collection θ k gen q = query c2 θ k g2 q) ∧
      (is_in_scope q = ScopeResult.inDomain → search collection θ k = [] →
        query collection θ k gen q = ⟨noInfoMsg, [], false, q⟩ ∧
        ∀ g2 : GenOutcome, query collection θ k gen q = query collection θ k g2 q) ∧
      (is_in_scope q = ScopeResult.inDomain → search collection θ k ≠ [] →
        query collection θ k gen q =
          ⟨generate_response gen, search collection θ k, true, q⟩) ∧
      ((query collection θ k gen q).has_sources = true ↔
        is_in_scope q = ScopeResult.inDomain ∧ search collection θ k ≠ []) := by
  refine ⟨?_, ?_, ?_, fun hs hne => query_generate hs hne, ?_⟩
  · intro hs
    exact ⟨query_greeting hs, fun c2 g2 => by rw [query_greeting hs, query_greeting hs]⟩
  · intro hs
    exact ⟨query_ood hs, fun c2 g2 => by rw [query_ood hs, query_ood hs]⟩
  · intro hs hemp
    exact ⟨query_noResults hs hemp, fun g2 => by
      rw [query_noResults hs hemp, query_noResults hs hemp]⟩
  · constructor
    · intro hflag
      cases hsc : is_in_scope q with
      | greeting => rw [query_greeting hsc] at hflag; simp at hflag
      | outOfDomain => rw [query_ood hsc] at hflag; simp at hflag
      | inDomain =>
        refine ⟨rfl, ?_⟩
        intro hemp
        rw [query_noResults hsc hemp] at hflag
        simp at hflag
    · rintro ⟨hsc, hne⟩
      rw [query_generate hsc hne]

/-- Witness for `query_contract`: the greeting question `"bonjour"` returns
the fixed welcome message with no sources. -/
theorem query_contract_witness :
    query (some [⟨['d'], [], 0⟩]) (35/100) 5 (GenOutcome.ok ['x']) "bonjour".toList =
      ⟨greetingMsg, [], false, "bonjour".toList⟩ :=
  ((query_contract (some [⟨['d'], [], 0⟩]) (35/100) 5 (GenOutcome.ok ['x'])
    "bonjour".toList).1 (by decide)).1

/-! ## Scope classifier and threshold monotonicity -/

/-- C6: the scope classifier is a pure function of the question in which the
greeting check precedes the domain-keyword check: after lowercasing and
trimming, a question equal to a greeting phrase, or starting with a greeting
phrase followed by a space or a comma, classifies as greeting; in particular
`"bonjour"` alone and `"bonjour, parle-moi de Carthage"` classify as greeting
while `"j'aime carthage"` classifies as in-domain. -/
theorem scope_classifier_priority :
    (∀ q : List Char,
      (pyStrip (q.map pyLowerChar) ∈ greetings ∨
        ∃ g ∈ greetings, (g ++ [' ']) <+: pyStrip (q.map pyLowerChar) ∨
          (g ++ [',']) <+: pyStrip (q.map pyLowerChar)) →
      is_in_scope q = ScopeResult.greeting) ∧
      is_in_scope "bonjour".toList = ScopeResult.greeting ∧
      is_in_scope "bonjour, parle-moi de Carthage".toList = ScopeResult.greeting ∧
      is_in_scope ("j".toList ++ [apos] ++ "aime carthage".toList) =
        ScopeResult.inDomain := by
  refine ⟨?_, by decide, by decide, by decide⟩
  intro q hq
  have hcond : (greetings.any (fun g => pyStrip (q.map pyLowerChar) == g) ||
      greetings.any (fun g =>
        (g ++ [' ']).isPrefixOf (pyStrip (q.map pyLowerChar)) ||
        (g ++ [',']).isPrefixOf (pyStrip (q.map pyLowerChar)))) = true := by
    rw [Bool.or_eq_true]
    rcases hq with hmem | ⟨g, hg, hpre⟩
    · left
      rw [List.any_eq_true]
      exact ⟨_, hmem, by simp⟩
    · right
      rw [List.any_eq_true]
      refine ⟨g, hg, ?_⟩
      rw [Bool.or_eq_true]
      rcases hpre with hp | hp
      · exact Or.inl (List.isPrefixOf_iff_prefix.mpr hp)
      · exact Or.inr (List.isPrefixOf_iff_prefix.mpr hp)
  simp only [is_in_scope]
  rw [if_pos hcond]

/-- Witness for `scope_classifier_priority`: the general greeting rule applied
to the concrete question `"salut les amis"`. -/
theorem scope_classifier_priority_witness :
    is_in_scope "salut les amis".toList = ScopeResult.greeting :=
  scope_classifier_priority.1 _
    (Or.inr ⟨"salut".toList, by decide, Or.inl (by decide)⟩)

theorem length_insertDescBy {α : Type} (key : α → ℚ) (a : α) :
    ∀ l : List α, (insertDescBy key a l).length = l.length + 1 := by
  intro l
  induction l with
  | nil => rfl
  | cons b t ih =>
    simp only [insertDescBy]
    split_ifs with h
    · rfl
    · simp [ih]

theorem length_sortDescBy {α : Type} (key : α → ℚ) :
    ∀ l : List α, (sortDescBy key l).length = l.length := by
  intro l
  induction l with
  | nil => rfl
  | cons a t ih => simp [sortDescBy, length_insertDescBy, ih]

theorem search_length (reply : IndexReply) (θ : ℚ) (k : ℕ) :
    (search (some reply) θ k).length = min k (filteredResults reply θ).length := by
  show (List.take k (sortDescBy RetrievalResult.similarity (filteredResults reply θ))).length = _
  rw [List.length_take, length_sortDescBy]

theorem filteredResults_length_mono (reply : IndexReply) {θ1 θ2 : ℚ} (h : θ1 ≤ θ2) :
    (filteredResults reply θ2).length ≤ (filteredResults reply θ1).length := by
  induction reply with
  | nil => exact le_refl _
  | cons e es ih =>
    simp only [filteredResults, List.filterMap_cons] at *
    by_cases h2 : θ2 ≤ rawSim e
    · rw [if_pos h2, if_pos (le_trans h h2)]
      simpa using ih
    · rw [if_neg h2]
      split_ifs with h1
      · exact le_trans ih (by simp)
      · exact ih

/-- C5: for a fixed reply and `top_k`, raising the similarity threshold never
increases the number of returned retrieval results. -/
theorem threshold_monotone (reply : IndexReply) (k : ℕ) (θ1 θ2 : ℚ) (h : θ1 ≤ θ2) :
    (search (some reply) θ2 k).length ≤ (search (some reply) θ1 k).length := by
  rw [search_length, search_length]
  exact min_le_min (le_refl k) (filteredResults_length_mono reply h)

/-- Witness for `threshold_monotone`: a concrete two-entry reply with
thresholds 0.35 and 0.8 (the higher threshold keeps at most as many). -/
theorem threshold_monotone_witness :
    (35 : ℚ)/100 ≤ (80 : ℚ)/100 ∧
      (search (some [⟨['A'], [], 1⟩, ⟨['B'], [], 0⟩]) ((80 : ℚ)/100) 5).length ≤
        (search (some [⟨['A'], [], 1⟩, ⟨['B'], [], 0⟩]) ((35 : ℚ)/100) 5).length :=
  ⟨by norm_num,
    threshold_monotone [⟨['A'], [], 1⟩, ⟨['B'], [], 0⟩] 5 (35/100) (80/100) (by norm_num)⟩

/-! ## Retriever characterization (sortedness, stability, counterexample) -/

theorem mem_insertDescBy {α : Type} {key : α → ℚ} {a x : α} :
    ∀ {l : List α}, x ∈ insertDescBy key a l ↔ x = a ∨ x ∈ l := by
  intro l
  induction l with
  | nil => simp [insertDescBy]
  | cons b t ih =>
    simp only [insertDescBy]
    split_ifs with h
    · simp [or_comm, or_left_comm]
    · simp only [List.mem_cons, ih]
      tauto

theorem insertDescBy_pairwise {α : Type} {key : α → ℚ} {a : α} :
    ∀ {l : List α}, List.Pairwise (fun x y => key y ≤ key x) l →
      List.Pairwise (fun x y => key y ≤ key x) (insertDescBy key a l) := by
  intro l
  induction l with
  | nil => intro _; simp [insertDescBy]
  | cons b t ih =>
    intro hl
    rw [List.pairwise_cons] at hl
    obtain ⟨hb, ht⟩ := hl
    simp only [insertDescBy]
    split_ifs with h
    · rw [List.pairwise_cons]
      refine ⟨?_, List.pairwise_cons.mpr ⟨hb, ht⟩⟩
      intro y hy
      rcases List.mem_cons.mp hy with rfl | hyt
      · exact h
      · exact le_trans (hb y hyt) h
    · rw [List.pairwise_cons]
      refine ⟨?_, ih ht⟩
      intro y hy
      rcases mem_insertDescBy.mp hy with rfl | hyt
      · exact le_of_not_le h
      · exact hb y hyt

theorem sortDescBy_pairwise {α : Type} (key : α → ℚ) :
    ∀ l : List α, List.Pairwise (fun x y => key y ≤ key x) (sortDescBy key l) := by
  intro l
  induction l with
  | nil => simp [sortDescBy]
  | cons a t ih => exact insertDescBy_pairwise ih

theorem insertDescBy_stable {α : Type} (key : α → ℚ) (idx : α → ℕ) (a : α) :
    ∀ (l : List α),
      List.Pairwise (fun x y =>
        key y < key x ∨ (key x = key y ∧ idx x < idx y)) l →
      (∀ y ∈ l, idx a < idx y) →
      List.Pairwise (fun x y =>
        key y < key x ∨ (key x = key y ∧ idx x < idx y)) (insertDescBy key a l) := by
  intro l
  induction l with
  | nil => intro _ _; simp [insertDescBy]
  | cons b t ih =>
    intro hl ha
    rw [List.pairwise_cons] at hl
    obtain ⟨hb, ht⟩ := hl
    simp only [insertDescBy]
    split_ifs with h
    · rw [List.pairwise_cons]
      refine ⟨?_, List.pairwise_cons.mpr ⟨hb, ht⟩⟩
      intro y hy
      rcases List.mem_cons.mp hy with rfl | hyt
      · rcases lt_or_eq_of_le h with hlt | heq
        · exact Or.inl hlt
        · exact Or.inr ⟨heq.symm, ha _ (List.mem_cons_self _ _)⟩
      · rcases hb y hyt with hlt | ⟨heq, _⟩
        · exact Or.inl (lt_of_lt_of_le hlt h)
        · rcases lt_or_eq_of_le (heq ▸ h) with hlt | heq2
          · exact Or.inl hlt
          · exact Or.inr ⟨heq2.symm, ha y (List.mem_cons_of_mem _ hyt)⟩
    · rw [List.pairwise_cons]
      refine ⟨?_, ih ht (fun y hy => ha y (List.mem_cons_of_mem _ hy))⟩
      intro y hy
      rcases mem_insertDescBy.mp hy with rfl | hyt
      · exact Or.inl (lt_of_not_le h)
      · exact hb y hyt

theorem mem_sortDescBy {α : Type} {key : α → ℚ} {x : α} :
    ∀ {l : List α}, x ∈ sortDescBy key l ↔ x ∈ l := by
  intro l
  induction l with
  | nil => simp [sortDescBy]
  | cons c cs ih => simp only [sortDescBy, mem_insertDescBy, ih, List.mem_cons]

theorem sortDescBy_stable {α : Type} (key : α → ℚ) (idx : α → ℕ) :
    ∀ l : List α, List.Pairwise (fun x y => idx x < idx y) l →
      List.Pairwise (fun x y =>
        key y < key x ∨ (key x = key y ∧ idx x < idx y)) (sortDescBy key l) := by
  intro l
  induction l with
  | nil => intro _; simp [sortDescBy]
  | cons a t ih =>
    intro hl
    rw [List.pairwise_cons] at hl
    obtain ⟨hidx, ht⟩ := hl
    refine insertDescBy_stable key idx a _ (ih ht) ?_
    intro y hy
    exact hidx y (mem_sortDescBy.mp hy)

theorem filteredResults_eq (reply : IndexReply) (θ : ℚ) :
    filteredResults reply θ =
      (reply.filter (fun e => decide (θ ≤ rawSim e))).map mkResult := by
  induction reply with
  | nil => rfl
  | cons e es ih =>
    simp only [filteredResults, List.filterMap_cons, List.filter_cons] at *
    by_cases h : θ ≤ rawSim e
    · simp [h, ih]
    · simp [h, ih]

theorem filteredResults_cons (e : ReplyEntry) (es : IndexReply) (θ : ℚ) :
    filteredResults (e :: es) θ =
      if θ ≤ rawSim e then mkResult e :: filteredResults es θ
      else filteredResults es θ := by
  simp only [filteredResults, List.filterMap_cons]
  split_ifs <;> rfl

theorem enumFrom_filterMap_map_snd (θ : ℚ) :
    ∀ (n : ℕ) (reply : IndexReply),
      ((List.enumFrom n reply).filterMap
        (fun ie => if θ ≤ rawSim ie.2 then some (ie.1, mkResult ie.2) else none)).map
          Prod.snd = filteredResults reply θ := by
  intro n reply
  induction reply generalizing n with
  | nil => rfl
  | cons e es ih =>
    simp only [List.enumFrom, List.filterMap_cons, filteredResults_cons]
    by_cases h : θ ≤ rawSim e
    · simp only [if_pos h, List.map_cons, ih]
    · simp only [if_neg h, ih]

theorem filteredResultsIdx_map_snd (reply : IndexReply) (θ : ℚ) :
    (filteredResultsIdx reply θ).map Prod.snd = filteredResults reply θ :=
  enumFrom_filterMap_map_snd θ 0 reply

theorem enumFrom_filterMap_fst_lb (θ : ℚ) :
    ∀ (n : ℕ) (reply : IndexReply) (y : ℕ × RetrievalResult),
      y ∈ (List.enumFrom n reply).filterMap
        (fun ie => if θ ≤ rawSim ie.2 then some (ie.1, mkResult ie.2) else none) →
      n ≤ y.1 := by
  intro n reply
  induction reply generalizing n with
  | nil => intro y hy; simp [List.filterMap_nil] at hy
  | cons e es ih =>
    intro y hy
    simp only [List.enumFrom, List.filterMap_cons] at hy
    by_cases h : θ ≤ rawSim e
    · rw [if_pos h] at hy
      rcases List.mem_cons.mp hy with rfl | hyt
      · exact le_refl n
      · exact le_trans (Nat.le_succ n) (ih (n + 1) y hyt)
    · rw [if_neg h] at hy
      exact le_trans (Nat.le_succ n) (ih (n + 1) y hy)

theorem filteredResultsIdx_pairwise (reply : IndexReply) (θ : ℚ) :
    List.Pairwise (fun a b => a.1 < b.1) (filteredResultsIdx reply θ) := by
  unfold filteredResultsIdx
  show List.Pairwise _ ((List.enumFrom 0 reply).filterMap _)
  generalize 0 = n
  induction reply generalizing n with
  | nil => simp [List.filterMap_nil]
  | cons e es ih =>
    simp only [List.enumFrom, List.filterMap_cons]
    by_cases h : θ ≤ rawSim e
    · rw [if_pos h]
      rw [List.pairwise_cons]
      refine ⟨?_, ih (n + 1)⟩
      intro y hy
      exact lt_of_lt_of_le (Nat.lt_succ_self n) (enumFrom_filterMap_fst_lb θ (n + 1) es y hy)
    · rw [if_neg h]
      exact ih (n + 1)

theorem insertDescBy_map_snd (a : ℕ × RetrievalResult) :
    ∀ l : List (ℕ × RetrievalResult),
      (insertDescBy (fun p => p.2.similarity) a l).map Prod.snd =
        insertDescBy RetrievalResult.similarity a.2 (l.map Prod.snd) := by
  intro l
  induction l with
  | nil => rfl
  | cons b t ih =>
    simp only [insertDescBy, List.map_cons]
    split_ifs with h
    · simp
    · simp [ih]

theorem sortDescBy_map_snd :
    ∀ l : List (ℕ × RetrievalResult),
      (sortDescBy (fun p => p.2.similarity) l).map Prod.snd =
        sortDescBy RetrievalResult.similarity (l.map Prod.snd) := by
  intro l
  induction l with
  | nil => rfl
  | cons a t ih =>
    simp only [sortDescBy, List.map_cons]
    rw [insertDescBy_map_snd, ih]

theorem search_eq_searchIdx (reply : IndexReply) (θ : ℚ) (k : ℕ) :
    search (some reply) θ k = (searchIdx reply θ k).map Prod.snd := by
  show (sortDescBy RetrievalResult.similarity (filteredResults reply θ)).take k = _
  unfold searchIdx
  rw [List.map_take, sortDescBy_map_snd, filteredResultsIdx_map_snd]

theorem round3_of_9999 : round3 (9999/10000) = 1 := by
  unfold round3 roundHalfEven
  have h1 : (9999/10000 : ℚ) * 1000 = 9999/10 := by norm_num
  rw [h1]
  have hf : ⌊(9999/10 : ℚ)⌋ = 999 := by
    rw [Int.floor_eq_iff]
    norm_num
  rw [hf]
  rw [if_neg (by norm_num), if_pos (by norm_num)]
  norm_num

theorem round3_of_one : round3 1 = 1 := by
  unfold round3 roundHalfEven
  have h1 : (1 : ℚ) * 1000 = 1000 := by norm_num
  rw [h1]
  have hf : ⌊(1000 : ℚ)⌋ = 1000 := by
    rw [show (1000 : ℚ) = ((1000 : ℤ) : ℚ) by norm_num, Int.floor_intCast]
  rw [hf]
  rw [if_pos (by norm_num)]
  norm_num

/-- C2 counterexample: for the reply `[(doc "A", distance 0.0002),
(doc "B", distance 0)]` both similarities round to 1.000, so the stable sort
keeps reply order and returns the entry with the strictly smaller raw
similarity `1 - d/2` first — the output is not sorted descending by
`1 - d/2` as the claim states (the code sorts by the rounded similarity). -/
theorem search_rounding_counterexample :
    search (some [⟨['A'], [], 1/5000⟩, ⟨['B'], [], 0⟩]) (35/100) 5 =
        [mkResult ⟨['A'], [], 1/5000⟩, mkResult ⟨['B'], [], 0⟩] ∧
      rawSim (⟨['A'], [], 1/5000⟩ : ReplyEntry) <
        rawSim (⟨['B'], [], 0⟩ : ReplyEntry) := by
  have hsimA : (mkResult ⟨['A'], [], 1/5000⟩).similarity = 1 := by
    show round3 (rawSim ⟨['A'], [], 1/5000⟩) = 1
    rw [show rawSim ⟨['A'], [], 1/5000⟩ = 9999/10000 by norm_num [rawSim]]
    exact round3_of_9999
  have hsimB : (mkResult ⟨['B'], [], 0⟩).similarity = 1 := by
    show round3 (rawSim ⟨['B'], [], 0⟩) = 1
    rw [show rawSim ⟨['B'], [], 0⟩ = 1 by norm_num [rawSim]]
    exact round3_of_one
  constructor
  · show (sortDescBy RetrievalResult.similarity
      (filteredResults [⟨['A'], [], 1/5000⟩, ⟨['B'], [], 0⟩] (35/100))).take 5 = _
    rw [filteredResults_cons, if_pos (by norm_num [rawSim]),
      filteredResults_cons, if_pos (by norm_num [rawSim])]
    show (sortDescBy RetrievalResult.similarity
      [mkResult ⟨['A'], [], 1/5000⟩, mkResult ⟨['B'], [], 0⟩]).take 5 = _
    simp only [sortDescBy, insertDescBy]
    rw [if_pos (by rw [hsimA, hsimB])]
    rfl
  · norm_num [rawSim]

/-- C2 (amended): for every index reply, threshold and `top_k`: the retriever
keeps exactly the entries whose unrounded similarity `1 - d/2` reaches the
threshold (in reply order), stores the similarity and distance rounded to
3 decimals, sorts by the stored (rounded) similarity descending — stable,
ties in the rounded similarity keeping reply order — truncates to `top_k`,
and the result length never exceeds `top_k`. -/
theorem search_spec (reply : IndexReply) (θ : ℚ) (k : ℕ) :
    (search (some reply) θ k).length ≤ k ∧
      search (some reply) θ k =
        (sortDescBy RetrievalResult.similarity
          ((reply.filter (fun e => decide (θ ≤ rawSim e))).map mkResult)).take k ∧
      List.Pairwise (fun a b => b.similarity ≤ a.similarity)
        (search (some reply) θ k) ∧
      search (some reply) θ k = (searchIdx reply θ k).map Prod.snd ∧
      List.Pairwise (fun a b =>
          b.2.similarity < a.2.similarity ∨
            (a.2.similarity = b.2.similarity ∧ a.1 < b.1))
        (searchIdx reply θ k) := by
  refine ⟨?_, ?_, ?_, search_eq_searchIdx reply θ k, ?_⟩
  · rw [search_length]
    exact min_le_left _ _
  · show (sortDescBy RetrievalResult.similarity (filteredResults reply θ)).take k = _
    rw [filteredResults_eq]
  · show List.Pairwise _
      ((sortDescBy RetrievalResult.similarity (filteredResults reply θ)).take k)
    exact (sortDescBy_pairwise RetrievalResult.similarity
      (filteredResults reply θ)).sublist (List.take_sublist k _)
  · unfold searchIdx
    exact (sortDescBy_stable (fun p => p.2.similarity) Prod.fst _
      (filteredResultsIdx_pairwise reply θ)).sublist (List.take_sublist k _)

/-! ## Chunker termination bound (step analysis of the cursor) -/

theorem stepCursor_fix {l : List Char} {size overlap : ℕ} (hov : overlap < size)
    {c : ℤ} (hc : (l.length : ℤ) ≤ c) :
    stepCursor l size overlap c = (l.length : ℤ) := by
  simp only [stepCursor, windowEnd]
  rw [show min (c + (size : ℤ)) (l.length : ℤ) = (l.length : ℤ) by omega]
  rw [if_neg (lt_irrefl (l.length : ℤ)), if_pos (by omega)]

theorem stepCursor_mem {l : List Char} {size overlap : ℕ} (hov : overlap < size)
    {c : ℤ} (h0 : 0 ≤ c) (hN : c ≤ (l.length : ℤ)) :
    c ≤ stepCursor l size overlap c ∧ 0 ≤ stepCursor l size overlap c ∧
      stepCursor l size overlap c ≤ (l.length : ℤ) := by
  rcases lt_or_eq_of_le hN with hlt | heq
  · obtain ⟨h1, h2⟩ := stepCursor_bounds hov h0 hlt
    exact ⟨le_of_lt h1, by omega, h2⟩
  · rw [heq, stepCursor_fix hov (le_refl _)]
    exact ⟨le_refl _, by omega, le_refl _⟩

theorem iterate_mem {l : List Char} {size overlap : ℕ} (hov : overlap < size)
    {c : ℤ} (h0 : 0 ≤ c) (hN : c ≤ (l.length : ℤ)) :
    ∀ n, 0 ≤ (stepCursor l size overlap)^[n] c ∧
      (stepCursor l size overlap)^[n] c ≤ (l.length : ℤ) := by
  intro n
  induction n with
  | zero => exact ⟨h0, hN⟩
  | succ m ih =>
    rw [Function.iterate_succ_apply']
    obtain ⟨ih0, ihN⟩ := ih
    have h := stepCursor_mem hov ih0 ihN
    exact ⟨h.2.1, h.2.2⟩

theorem le_iterate {l : List Char} {size overlap : ℕ} (hov : overlap < size)
    {c : ℤ} (h0 : 0 ≤ c) (hN : c ≤ (l.length : ℤ)) :
    ∀ n, c ≤ (stepCursor l size overlap)^[n] c := by
  intro n
  induction n with
  | zero => exact le_refl c
  | succ m ih =>
    have hm := iterate_mem hov h0 hN m
    calc c ≤ (stepCursor l size overlap)^[m] c := ih
      _ ≤ (stepCursor l size overlap)^[m + 1] c := by
        rw [Function.iterate_succ_apply']
        exact (stepCursor_mem hov hm.1 hm.2).1

theorem iterate_mono {l : List Char} {size overlap : ℕ} (hov : overlap < size)
    {c : ℤ} (h0 : 0 ≤ c) (hN : c ≤ (l.length : ℤ)) {m n : ℕ} (hmn : m ≤ n) :
    (stepCursor l size overlap)^[m] c ≤ (stepCursor l size overlap)^[n] c := by
  obtain ⟨k, rfl⟩ := Nat.exists_eq_add_of_le hmn
  rw [add_comm m k, Function.iterate_add_apply]
  have hm := iterate_mem hov h0 hN m
  exact le_iterate hov hm.1 hm.2 k

theorem iterate_fix {l : List Char} {size overlap : ℕ} (hov : overlap < size) :
    ∀ n, (stepCursor l size overlap)^[n] (l.length : ℤ) = (l.length : ℤ) := by
  intro n
  induction n with
  | zero => rfl
  | succ m ih => rw [Function.iterate_succ_apply, stepCursor_fix hov (le_refl _), ih]

theorem chunkLoop_succ (l : List Char) (size overlap fuel : ℕ) (start : ℤ) (cid : ℕ) :
    chunkLoop l size overlap (fuel + 1) start cid =
      if start < (l.length : ℤ) then
        (chunkLoop l size overlap fuel (stepCursor l size overlap start)
          (if 100 ≤ (pyStrip (pySlice l start (windowEnd l size start))).length
            then cid + 1 else cid)).map
          (fun cs =>
            if 100 ≤ (pyStrip (pySlice l start (windowEnd l size start))).length
            then ⟨pyStrip (pySlice l start (windowEnd l size start)), cid, start,
                windowEnd l size start⟩ :: cs
            else cs)
      else some [] := rfl

theorem chunkLoop_isSome_of_iterate {l : List Char} {size overlap : ℕ}
    (hov : overlap < size) :
    ∀ (m : ℕ) (c : ℤ) (cid : ℕ), 0 ≤ c → c ≤ (l.length : ℤ) →
      (l.length : ℤ) ≤ (stepCursor l size overlap)^[m] c →
      (chunkLoop l size overlap (m + 1) c cid).isSome := by
  intro m
  induction m with
  | zero =>
    intro c cid h0 hN hit
    rw [Function.iterate_zero_apply] at hit
    rw [chunkLoop_succ, if_neg (by omega)]
    rfl
  | succ m ih =>
    intro c cid h0 hN hit
    rw [chunkLoop_succ]
    by_cases hc : c < (l.length : ℤ)
    · rw [if_pos hc]
      have hb := stepCursor_bounds hov h0 hc
      apply isSome_map_of_isSome
      apply ih _ _ (by omega) hb.2
      rw [Function.iterate_succ_apply] at hit
      exact hit
    · rw [if_neg hc]
      rfl

theorem short_step_cut {l : List Char} {size overlap : ℕ} (hov : overlap < size)
    {c : ℤ} (h0 : 0 ≤ c) (hcN : c < (l.length : ℤ))
    (hshort : stepCursor l size overlap c < c + ((size : ℤ) - (overlap : ℤ)))
    (hnN : stepCursor l size overlap c < (l.length : ℤ)) :
    c + (size : ℤ) < (l.length : ℤ) ∧
      ∃ (pos : ℕ) (t : List Char), t ∈ punctList ∧
        pyRfind t l c (min (c + (size : ℤ)) (l.length : ℤ)) = some pos ∧
        stepCursor l size overlap c = ((pos + t.length : ℕ) : ℤ) := by
  have hb : windowEnd l size c ≤ c + ((size : ℤ) - (overlap : ℤ)) := by
    by_contra hb
    have heq : stepCursor l size overlap c = c + ((size : ℤ) - (overlap : ℤ)) := by
      simp only [stepCursor]
      rw [if_neg hb]
    omega
  have hsc : stepCursor l size overlap c = windowEnd l size c := by
    simp only [stepCursor]
    rw [if_pos hb]
  rw [hsc] at hshort hnN
  have hint : c + (size : ℤ) < (l.length : ℤ) := by
    by_contra hint
    have hE : windowEnd l size c = (l.length : ℤ) := by
      simp only [windowEnd]
      rw [show min (c + (size : ℤ)) (l.length : ℤ) = (l.length : ℤ) by omega]
      rw [if_neg (by omega)]
    omega
  refine ⟨hint, ?_⟩
  have hE : windowEnd l size c =
      naturalCutEnd l c (min (c + (size : ℤ)) (l.length : ℤ)) := by
    simp only [windowEnd]
    rw [if_pos (by omega)]
  cases hfr : firstRfind l c (min (c + (size : ℤ)) (l.length : ℤ)) punctList with
  | none =>
    exfalso
    have hcut : naturalCutEnd l c (min (c + (size : ℤ)) (l.length : ℤ)) =
        min (c + (size : ℤ)) (l.length : ℤ) := by
      unfold naturalCutEnd
      rw [hfr]
    omega
  | some pp =>
    obtain ⟨pos, t⟩ := pp
    obtain ⟨hmem, hfind⟩ := firstRfind_some hfr
    refine ⟨pos, t, hmem, hfind, ?_⟩
    have hcut : naturalCutEnd l c (min (c + (size : ℤ)) (l.length : ℤ)) =
        ((pos + t.length : ℕ) : ℤ) := by
      unfold naturalCutEnd
      rw [hfr]
    omega

theorem repeated_punct {l : List Char} {size : ℕ}
    {c d : ℤ} {pos q : ℕ} {t : List Char} (hmem : t ∈ punctList)
    (hc0 : 0 ≤ c) (hint : c + (size : ℤ) < (l.length : ℤ))
    (hfc : pyRfind t l c (min (c + (size : ℤ)) (l.length : ℤ)) = some pos)
    (hcd : ((pos + t.length : ℕ) : ℤ) ≤ d) (hdN : d ≤ (l.length : ℤ))
    (hfd : pyRfind t l d (min (d + (size : ℤ)) (l.length : ℤ)) = some q) :
    c + (size : ℤ) < ((q + t.length : ℕ) : ℤ) := by
  by_contra hcon
  push_neg at hcon
  obtain ⟨hlo_c, hhi_c, hocc_c⟩ := pyRfind_some hfc
  obtain ⟨hlo_d, hhi_d, hocc_d⟩ := pyRfind_some hfd
  have hc' : (pyIdx l.length c : ℤ) = c := pyIdx_coe hc0 (by omega)
  have hd' : (pyIdx l.length d : ℤ) = d := pyIdx_coe (by omega) hdN
  have hhic' : (pyIdx l.length (min (c + (size : ℤ)) (l.length : ℤ)) : ℤ) =
      c + (size : ℤ) := by
    rw [pyIdx_coe (by omega) (by omega)]
    omega
  have hlen := punctList_length_pos hmem
  have h1n : pyIdx l.length c ≤ q := by omega
  have h2n : q + t.length ≤ pyIdx l.length (min (c + (size : ℤ)) (l.length : ℤ)) := by
    omega
  have hq_le : q ≤ pos := pyRfind_maximal hfc ⟨h1n, h2n, hocc_d⟩
  omega

theorem punct_indexOf_lt_length {t : List Char} (h : t ∈ punctList) :
    punctList.indexOf t < punctList.length := by
  fin_cases h <;> decide

theorem punct_indexOf_inj {t u : List Char} (ht : t ∈ punctList) (hu : u ∈ punctList)
    (h : punctList.indexOf t = punctList.indexOf u) : t = u := by
  fin_cases ht <;> fin_cases hu <;> revert h <;> decide

theorem six_step_advance {l : List Char} {size overlap : ℕ} (hov : overlap < size)
    {c : ℤ} (h0 : 0 ≤ c) (hcN : c < (l.length : ℤ)) :
    (l.length : ℤ) ≤ (stepCursor l size overlap)^[6] c ∨
      c + ((size : ℤ) - (overlap : ℤ)) ≤ (stepCursor l size overlap)^[6] c := by
  by_cases hend : (l.length : ℤ) ≤ (stepCursor l size overlap)^[6] c
  · exact Or.inl hend
  push_neg at hend
  right
  have hmem : ∀ n, 0 ≤ (stepCursor l size overlap)^[n] c ∧
      (stepCursor l size overlap)^[n] c ≤ (l.length : ℤ) :=
    iterate_mem hov h0 (le_of_lt hcN)
  have hmono : ∀ {m n : ℕ}, m ≤ n →
      (stepCursor l size overlap)^[m] c ≤ (stepCursor l size overlap)^[n] c :=
    fun hmn => iterate_mono hov h0 (le_of_lt hcN) hmn
  have hlt : ∀ i, i ≤ 6 → (stepCursor l size overlap)^[i] c < (l.length : ℤ) :=
    fun i hi => lt_of_le_of_lt (hmono hi) hend
  by_cases hfull : ∃ i : Fin 6,
      (stepCursor l size overlap)^[i.val] c + ((size : ℤ) - (overlap : ℤ)) ≤
        (stepCursor l size overlap)^[i.val + 1] c
  · obtain ⟨i, hi⟩ := hfull
    have h1 : c ≤ (stepCursor l size overlap)^[i.val] c := hmono (Nat.zero_le _)
    have h2 : (stepCursor l size overlap)^[i.val + 1] c ≤
        (stepCursor l size overlap)^[6] c := hmono (by omega)
    omega
  · push_neg at hfull
    have hdata : ∀ i : Fin 6, ∃ (pos : ℕ) (t : List Char), t ∈ punctList ∧
        pyRfind t l ((stepCursor l size overlap)^[i.val] c)
          (min ((stepCursor l size overlap)^[i.val] c + (size : ℤ)) (l.length : ℤ)) =
            some pos ∧
        (stepCursor l size overlap)^[i.val + 1] c = ((pos + t.length : ℕ) : ℤ) ∧
        (stepCursor l size overlap)^[i.val] c + (size : ℤ) < (l.length : ℤ) := by
      intro i
      have hstep : (stepCursor l size overlap)^[i.val + 1] c =
          stepCursor l size overlap ((stepCursor l size overlap)^[i.val] c) :=
        Function.iterate_succ_apply' _ _ _
      have hshort := hfull i
      rw [hstep] at hshort
      have hnN : stepCursor l size overlap ((stepCursor l size overlap)^[i.val] c) <
          (l.length : ℤ) := by
        rw [← hstep]
        exact hlt (i.val + 1) (by have := i.isLt; omega)
      obtain ⟨hint, pos, t, hmem2, hfind, heq⟩ :=
        short_step_cut hov (hmem i.val).1 (hlt i.val (by have := i.isLt; omega))
          hshort hnN
      exact ⟨pos, t, hmem2, hfind, by rw [hstep, heq], hint⟩
    choose pos typ hmem2 hfind heq hint using hdata
    have hcard : ∀ i, punctList.indexOf (typ i) < punctList.length :=
      fun i => punct_indexOf_lt_length (hmem2 i)
    obtain ⟨a, b, hab, hgab⟩ := Fintype.exists_ne_map_eq_of_card_lt
      (fun i : Fin 6 => (⟨punctList.indexOf (typ i), hcard i⟩ : Fin punctList.length))
      (by simp [punctList])
    have htyp_ab : typ a = typ b :=
      punct_indexOf_inj (hmem2 a) (hmem2 b) (congrArg Fin.val hgab)
    obtain ⟨i, j, hij, htyp⟩ : ∃ i j : Fin 6, i.val < j.val ∧ typ i = typ j := by
      rcases Nat.lt_or_ge a.val b.val with h | h
      · exact ⟨a, b, h, htyp_ab⟩
      · refine ⟨b, a, ?_, htyp_ab.symm⟩
        rcases Nat.eq_or_lt_of_le h with heq2 | hlt2
        · exact absurd (Fin.ext heq2.symm) hab
        · exact hlt2
    have hfd : pyRfind (typ i) l ((stepCursor l size overlap)^[j.val] c)
        (min ((stepCursor l size overlap)^[j.val] c + (size : ℤ)) (l.length : ℤ)) =
          some (pos j) := by
      rw [htyp]
      exact hfind j
    have hcd : ((pos i + (typ i).length : ℕ) : ℤ) ≤
        (stepCursor l size overlap)^[j.val] c := by
      rw [← heq i]
      exact hmono (by omega)
    have hkey := repeated_punct (hmem2 i) (hmem i.val).1 (hint i) (hfind i) hcd
      (hmem j.val).2 hfd
    have hlen_eq : (typ i).length = (typ j).length := by rw [htyp]
    have hj1 : (stepCursor l size overlap)^[j.val + 1] c ≤
        (stepCursor l size overlap)^[6] c := hmono (by have := j.isLt; omega)
    have hj2 := heq j
    have hi0 : c ≤ (stepCursor l size overlap)^[i.val] c := hmono (Nat.zero_le _)
    omega

theorem iterate_six_mul {l : List Char} {size overlap : ℕ} (hov : overlap < size) :
    ∀ m : ℕ, (l.length : ℤ) ≤ (stepCursor l size overlap)^[6 * m] 0 ∨
      (m : ℤ) * ((size : ℤ) - (overlap : ℤ)) ≤ (stepCursor l size overlap)^[6 * m] 0 := by
  intro m
  induction m with
  | zero => right; simp
  | succ k ih =>
    have h6 : 6 * (k + 1) = 6 + 6 * k := by ring
    rw [h6, Function.iterate_add_apply]
    have hmemc := iterate_mem (l := l) hov (le_refl (0 : ℤ)) (by omega) (6 * k)
    rcases le_or_lt (l.length : ℤ) ((stepCursor l size overlap)^[6 * k] 0) with hge | hlt
    · left
      have hceq : (stepCursor l size overlap)^[6 * k] 0 = (l.length : ℤ) :=
        le_antisymm hmemc.2 hge
      rw [hceq, iterate_fix hov 6]
    · rcases ih with hN | hδ
      · exact absurd hN (not_le.mpr hlt)
      · rcases six_step_advance hov hmemc.1 hlt with h | h
        · exact Or.inl h
        · right
          have hc : ((k : ℤ) + 1) * ((size : ℤ) - (overlap : ℤ)) =
              (k : ℤ) * ((size : ℤ) - (overlap : ℤ)) + ((size : ℤ) - (overlap : ℤ)) := by
            ring
          push_cast
          rw [hc]
          linarith

/-- C4 counterexample: with chunk_size = overlap = 2 (degenerate
overlap ≥ chunk_size) on the nonempty text `"aaaaa"` the cursor never
advances (the update rule only clamps forward jumps back to the window end,
it never pushes the cursor forward), so the loop never terminates: no amount
of fuel completes it. -/
theorem chunker_termination_counterexample :
    ¬ chunkerTerminates "aaaaa".toList 2 2 := by
  unfold chunkerTerminates
  rintro ⟨fuel, hf⟩
  rw [chunkLoop_stuck (le_refl 2) (by decide) fuel 0 0 (le_refl 0)] at hf
  simp at hf

/-- C4 (amended): for any positive chunk_size and any overlap < chunk_size,
the chunking loop on a text of length N terminates within
`6 * (N / (chunk_size − overlap)) + 6` iterations — fuel
`6 * (N / (chunk_size − overlap)) + 7` suffices — which is
O(N / (chunk_size − overlap)) loop steps; for degenerate
overlap ≥ chunk_size, however, the cursor-update rule does not guarantee
termination: the loop never terminates on any nonempty text. -/
theorem chunker_termination (l : List Char) (size overlap : ℕ) :
    (overlap < size →
      (chunkLoop l size overlap (6 * (l.length / (size - overlap)) + 7) 0 0).isSome) ∧
      (size ≤ overlap → 1 ≤ l.length → ¬ chunkerTerminates l size overlap) := by
  constructor
  · intro hov
    have hfuel : 6 * (l.length / (size - overlap)) + 7 =
        6 * (l.length / (size - overlap) + 1) + 1 := by ring
    rw [hfuel]
    apply chunkLoop_isSome_of_iterate hov _ _ _ (le_refl 0) (by omega)
    rcases iterate_six_mul (l := l) hov (l.length / (size - overlap) + 1) with h | h
    · exact h
    · refine le_trans ?_ h
      have hq : l.length < (l.length / (size - overlap) + 1) * (size - overlap) := by
        have h1 : (l.length / (size - overlap)) * (size - overlap) +
            l.length % (size - overlap) = l.length := Nat.div_add_mod' _ _
        have h2 : l.length % (size - overlap) < size - overlap :=
          Nat.mod_lt _ (by omega)
        have h3 : (l.length / (size - overlap) + 1) * (size - overlap) =
            (l.length / (size - overlap)) * (size - overlap) + (size - overlap) :=
          Nat.succ_mul _ _
        omega
      calc (l.length : ℤ) ≤
          (((l.length / (size - overlap) + 1) * (size - overlap) : ℕ) : ℤ) := by
            exact_mod_cast le_of_lt hq
        _ = ((l.length / (size - overlap) + 1 : ℕ) : ℤ) *
            ((size : ℤ) - (overlap : ℤ)) := by
            rw [Nat.cast_mul, Nat.cast_sub (Nat.le_of_lt hov)]
  · intro hov hN
    unfold chunkerTerminates
    rintro ⟨fuel, hf⟩
    rw [chunkLoop_stuck hov hN fuel 0 0 (le_refl 0)] at hf
    simp at hf

/-- Witness for `chunker_termination`: both parts applied at concrete inputs
(default-like parameters on a 100-character text; degenerate parameters on a
3-character text). -/
theorem chunker_termination_witness :
    (chunkLoop (List.replicate 100 'a') 600 150
        (6 * ((List.replicate 100 'a').length / (600 - 150)) + 7) 0 0).isSome ∧
      ¬ chunkerTerminates (List.replicate 3 'b') 2 5 :=
  ⟨(chunker_termination (List.replicate 100 'a') 600 150).1 (by omega),
    (chunker_termination (List.replicate 3 'b') 2 5).2 (by omega) (by decide)⟩
